import Mathlib

/-!
Verification of the motion-estimation module
(`spikeinterface/sortingcomponents/motion_estimation.py`).

The Python source works on NumPy float arrays.  We embed the arithmetic in
exact rationals (`ℚ`): every NumPy operation used by the code (arange,
histogramdd, diff, convolution, argmax, floor/truncating division) is
translated literally, with Python's `//` (floor division) and `int()`
(truncation toward zero) modelled explicitly.  Where the source applies a
transcendental library function (`exp`, `sqrt`) we either parametrise over
it (Gaussian smoothing kernel, whose values no claim inspects) or move to
`ℝ` (non-rigid windows, normalised cross-correlation).

Matrices that the source iterates column-by-column (`motion[:, i]`) are
represented column-major: `motion : List (List ℚ)` with `motion[i]` the
`i`-th spatial column.
-/

/-- Python `int(x)` on a float: truncation toward zero. -/
def pyInt (x : ℚ) : ℤ := if 0 ≤ x then ⌊x⌋ else ⌈x⌉

/-- Python float floor-division `a // b` (`np.floor_divide`). -/
def pyFloorDiv (a b : ℚ) : ℚ := (⌊a / b⌋ : ℤ)

/-- Python float modulo `a % b`, which is `a - b * (a // b)`. -/
def pyMod (a b : ℚ) : ℚ := a - b * pyFloorDiv a b

/-- Model of `np.arange(start, stop, step)` for a positive step: the list
`start, start+step, …` of length `⌈(stop-start)/step⌉` (empty when the
range is nonpositive, as in NumPy). -/
def arangeQ (start stop step : ℚ) : List ℚ :=
  if 0 < step then
    (List.range ⌈(stop - start) / step⌉₊).map (fun (i : ℕ) => start + (i : ℚ) * step)
  else []

/-- Model of `np.min` on a nonempty list (0 on the empty list, which NumPy
rejects). -/
def listMin : List ℚ → ℚ
  | [] => 0
  | x :: xs => xs.foldl min x

/-- Model of `np.max` on a nonempty list (0 on the empty list, which NumPy
rejects). -/
def listMax : List ℚ → ℚ
  | [] => 0
  | x :: xs => xs.foldl max x

lemma foldl_min_le (xs : List ℚ) (a : ℚ) : xs.foldl min a ≤ a := by
  induction xs generalizing a with
  | nil => simp
  | cons y ys ih =>
    simp only [List.foldl_cons]
    exact le_trans (ih (min a y)) (min_le_left a y)

lemma le_foldl_max (xs : List ℚ) (a : ℚ) : a ≤ xs.foldl max a := by
  induction xs generalizing a with
  | nil => simp
  | cons y ys ih =>
    simp only [List.foldl_cons]
    exact le_trans (le_max_left a y) (ih (max a y))

lemma listMin_le_listMax {l : List ℚ} (h : l ≠ []) : listMin l ≤ listMax l := by
  match l with
  | [] => exact absurd rfl h
  | x :: xs =>
    exact le_trans (foldl_min_le xs x) (le_foldl_max xs x)

lemma arangeQ_length (start stop step : ℚ) (h : 0 < step) :
    (arangeQ start stop step).length = ⌈(stop - start) / step⌉₊ := by
  rw [arangeQ, if_pos h, List.length_map, List.length_range]

lemma arangeQ_getD (start stop step : ℚ) (h : 0 < step) (i : ℕ)
    (hi : i < (arangeQ start stop step).length) :
    (arangeQ start stop step).getD i 0 = start + (i : ℚ) * step := by
  rw [arangeQ, if_pos h] at hi ⊢
  rw [List.getD_eq_getElem _ _ hi, List.getElem_map, List.getElem_range]

/-! ### Spatial bin edges (`get_spatial_bin_edges`, source lines 259-269) -/

/-- Embedding of `get_spatial_bin_edges`: the contact positions along the
chosen axis, a margin and a bin size give
`np.arange(min_ - margin, max_ + margin + bin_um, bin_um)` where `min_`
and `max_` are the contact extrema shifted by the margin. -/
def get_spatial_bin_edges (contactPos : List ℚ) (margin_um bin_um : ℚ) : List ℚ :=
  arangeQ (listMin contactPos - margin_um) (listMax contactPos + margin_um + bin_um) bin_um

/-- C5: for every set of contact positions, margin and bin size, the spatial
bin edges returned by `get_spatial_bin_edges` are evenly spaced with
consecutive difference `bin_um`, and the number of edges equals
`⌈(max(contacts)+margin - (min(contacts)-margin)) / bin_um⌉ + 1` (the
quotient is nonnegative under the stated hypotheses, so the natural-number
ceiling is the ceiling of the claim). -/
theorem spatial_bin_edges_spacing_and_count
    (contactPos : List ℚ) (margin_um bin_um : ℚ)
    (hne : contactPos ≠ []) (hbin : 0 < bin_um) (hmargin : 0 ≤ margin_um) :
    (∀ i : ℕ, i + 1 < (get_spatial_bin_edges contactPos margin_um bin_um).length →
      (get_spatial_bin_edges contactPos margin_um bin_um).getD (i+1) 0 -
        (get_spatial_bin_edges contactPos margin_um bin_um).getD i 0 = bin_um) ∧
    (get_spatial_bin_edges contactPos margin_um bin_um).length =
      ⌈((listMax contactPos + margin_um) - (listMin contactPos - margin_um))
        / bin_um⌉₊ + 1 := by
  constructor
  · intro i hi
    have hi' : i < (get_spatial_bin_edges contactPos margin_um bin_um).length :=
      Nat.lt_of_succ_lt hi
    rw [get_spatial_bin_edges] at hi hi' ⊢
    rw [arangeQ_getD _ _ _ hbin _ hi, arangeQ_getD _ _ _ hbin _ hi']
    push_cast
    ring
  · rw [get_spatial_bin_edges, arangeQ_length _ _ _ hbin]
    have hb : bin_um ≠ 0 := hbin.ne'
    have hR : 0 ≤ ((listMax contactPos + margin_um) - (listMin contactPos - margin_um)) := by
      have := listMin_le_listMax hne
      linarith
    have harg : (listMax contactPos + margin_um + bin_um - (listMin contactPos - margin_um))
        / bin_um =
        ((listMax contactPos + margin_um) - (listMin contactPos - margin_um)) / bin_um + 1 := by
      field_simp
      ring
    rw [harg, Nat.ceil_add_one (div_nonneg hR hbin.le)]

/-- Witness for C5 at a concrete configuration. -/
theorem spatial_bin_edges_spacing_and_count_witness :
    ([ (0:ℚ), 100 ] ≠ [] ∧ (0:ℚ) < 10 ∧ (0:ℚ) ≤ 50) ∧
    (get_spatial_bin_edges [0, 100] 50 10).length =
      ⌈((listMax [0, 100] + 50) - (listMin [0, 100] - 50)) / 10⌉₊ + 1 :=
  ⟨⟨by simp, by norm_num, by norm_num⟩,
   (spatial_bin_edges_spacing_and_count [0, 100] 50 10 (by simp) (by norm_num)
      (by norm_num)).2⟩

/-! ### Temporal bin edges and centers (source lines 156-157, 210-211,
310-314) -/

/-- Embedding of the temporal bin-edge construction shared by
`make_2d_motion_histogram` and `make_3d_motion_histograms` (lines 310-314):
`bin_sample_size = int(bin_duration_s * fs)`,
`sample_bin_edges = np.arange(0, num_samples + bin_sample_size,
bin_sample_size)` and `temporal_bin_edges = sample_bin_edges / fs`. -/
def temporal_bin_edges (fs : ℚ) (num_samples : ℕ) (bin_duration_s : ℚ) : List ℚ :=
  (arangeQ 0 ((num_samples : ℚ) + (pyInt (bin_duration_s * fs) : ℤ))
    ((pyInt (bin_duration_s * fs) : ℤ) : ℚ)).map (· / fs)

/-- Embedding of `temporal_bins = temporal_hist_bin_edges[:-1] +
bin_duration_s // 2.` (source lines 156-157 and 210-211).  Note the Python
`//`: a float floor division. -/
def temporal_bins (fs : ℚ) (num_samples : ℕ) (bin_duration_s : ℚ) : List ℚ :=
  (temporal_bin_edges fs num_samples bin_duration_s).dropLast.map
    (· + pyFloorDiv bin_duration_s 2)

/-- C6 (code bug): at sampling rate 1 Hz, 10 samples and
`bin_duration_s = 5`, the temporal bin edges are `[0, 5, 10]` but the code
returns `[2, 7]` — the left edges plus `5 // 2 = 2` (floor division) —
instead of the bin centers, the edges plus half the bin duration
`5 / 2 = 2.5`. -/
theorem temporal_bins_floor_division_bug :
    temporal_bin_edges 1 10 5 = [0, 5, 10] ∧
    temporal_bins 1 10 5 = [2, 7] ∧
    temporal_bins 1 10 5 ≠ (temporal_bin_edges 1 10 5).dropLast.map (· + 5 / 2) := by
  refine ⟨?_, ?_, ?_⟩ <;>
    norm_num [temporal_bins, temporal_bin_edges, arangeQ, pyInt, pyFloorDiv,
      List.range_succ]

/-! ### Cleaning of the motion vector (`clean_motion_vector`, source lines
898-963) -/

/-- Model of `scipy.interpolate.interp1d(xs, ys)` (linear, the default)
evaluated at one point, on the list of kept `(x, y)` pairs: the value is
interpolated on the segment whose right endpoint is the first `x`-knot at or
above the query.  The model is total where SciPy raises: interp1d demands at
least two knots (`ValueError` otherwise, raised already at construction on
line 947), and rejects out-of-range queries.  Theorems whose quantification
could reach the two-knot error path therefore carry an explicit
at-least-two-time-bins hypothesis; out-of-range queries never arise (index 0
and the last index are always kept, so masked queries are interior). -/
def interpLin : List (ℚ × ℚ) → ℚ → ℚ
  | [], _ => 0
  | [p], _ => p.2
  | p :: q :: rest, x =>
    if x ≤ q.1 then p.2 + (q.2 - p.2) * (x - p.1) / (q.1 - p.1)
    else interpLin (q :: rest) x

/-- Embedding of source lines 932-934: `speed = np.diff(one_motion) /
bin_duration_s`, `inds, = np.nonzero(np.abs(speed) > speed_threshold)`,
`inds += 1`. -/
def speedInds (bds thr : ℚ) (col : List ℚ) : List ℕ :=
  ((List.range (col.length - 1)).filter
    (fun k => decide (thr < |(col.getD (k+1) 0 - col.getD k 0) / bds|))).map (· + 1)

/-- Embedding of `np.sum(inds[1::2] - inds[::2])` on an even-length index
list: the summed gaps of consecutive pairs. -/
def pairGapSum (l : List ℕ) : ℤ :=
  ((List.range (l.length / 2)).map
    (fun i => (l.getD (2*i+1) 0 : ℤ) - (l.getD (2*i) 0 : ℤ))).sum

/-- Embedding of the odd-count adjustment, source lines 935-943: when the
crossing count is odd the code compares the pair-gap sums of `inds[:-1]`
and `inds[1:]` but only ever assigns `inds = inds[:-1]`; in the other branch
the full odd-length list is kept (there is no `inds = inds[1:]`
assignment). -/
def adjustOdd (inds : List ℕ) : List ℕ :=
  if inds.length % 2 = 1 then
    if pairGapSum inds.dropLast < pairGapSum (inds.drop 1) then inds.dropLast else inds
  else inds

/-- Embedding of the mask built by source lines 944-946: index `j` is kept
unless it lies in one of the half-open intervals
`[inds[2*i], inds[2*i+1])` for `i < inds.size // 2` (an odd trailing index
is ignored by the pairing). -/
def maskKeep (inds : List ℕ) (j : ℕ) : Bool :=
  !((List.range (inds.length / 2)).any
    (fun i => decide (inds.getD (2*i) 0 ≤ j ∧ j < inds.getD (2*i+1) 0)))

/-- Embedding of the per-column body of the cleaning loop (source lines
930-948): detect crossings, adjust an odd count, mask the paired intervals
and reconstruct masked entries by interpolation over the kept
`(temporal_bin, value)` pairs. -/
def cleanColumnStep (tb : List ℚ) (bds thr : ℚ) (col : List ℚ) : List ℚ :=
  let inds := adjustOdd (speedInds bds thr col)
  let kept := ((List.range col.length).filter (fun j => maskKeep inds j)).map
    (fun j => (tb.getD j 0, col.getD j 0))
  (List.range col.length).map
    (fun j => if maskKeep inds j then col.getD j 0 else interpLin kept (tb.getD j 0))

/-- List lookup at a signed index, 0 outside the list (used to express the
centered slice of a full convolution without natural-number clamping). -/
def getI (l : List ℚ) (i : ℤ) : ℚ := if 0 ≤ i then l.getD i.toNat 0 else 0

/-- Embedding of the smoothing kernel of source lines 952-959, parametrised
by the library exponential `expQ` (the float `np.exp`): centered bins with
the even-length shift correction, a Gaussian profile, normalised to sum 1. -/
def smoothKernel (expQ : ℚ → ℚ) (T : ℕ) (bds sigma : ℚ) : List ℚ :=
  let bins := (List.range T).map (fun (j : ℕ) =>
    ((j : ℚ) - (T / 2 : ℕ) + (if T % 2 = 0 then 1 else 0)) * bds)
  let raw := bins.map (fun b => expQ (-b^2 / (2 * sigma^2)))
  raw.map (· / raw.sum)

/-- Exact-arithmetic model of `scipy.signal.fftconvolve(col, kernel,
mode='same')` along the time axis: the centered slice of the full linear
convolution. -/
def convSameCol (col kern : List ℚ) : List ℚ :=
  (List.range col.length).map (fun (t : ℕ) =>
    ((List.range col.length).map (fun (k : ℕ) =>
      col.getD k 0 * getI kern (((t + (col.length - 1) / 2 : ℕ) : ℤ) - (k : ℤ)))).sum)

/-- Embedding of the optional Gaussian smoothing of source lines 951-961,
applied per spatial column. -/
def smoothColumns (expQ : ℚ → ℚ) (motion : List (List ℚ)) (bds sigma : ℚ) :
    List (List ℚ) :=
  motion.map (fun col => convSameCol col (smoothKernel expQ col.length bds sigma))

/-- Embedding of `clean_motion_vector` (column-major `motion`): the cleaning
step applied to every spatial column, then the optional Gaussian smoothing.
The columns are independent in the source loop, so the loop is a map. -/
def clean_motion_vector (expQ : ℚ → ℚ) (motion : List (List ℚ)) (tb : List ℚ)
    (bds thr : ℚ) (sigma : Option ℚ) : List (List ℚ) :=
  let cleaned := motion.map (cleanColumnStep tb bds thr)
  match sigma with
  | none => cleaned
  | some s => smoothColumns expQ cleaned bds s

/-- State-passing embedding of `clean_motion_vector` that tracks the two
array buffers of the source: the caller's `motion` argument and the
`motion_clean = motion.copy()` buffer (line 925).  Every in-place write of
the loop (`one_motion[~mask] = …`, a view of `motion_clean`) targets the
second buffer; the first component is the caller's buffer after the call,
the second the returned array. -/
def clean_motion_vector_trace (expQ : ℚ → ℚ) (motion : List (List ℚ)) (tb : List ℚ)
    (bds thr : ℚ) (sigma : Option ℚ) : List (List ℚ) × List (List ℚ) :=
  let looped := (List.range motion.length).foldl
    (fun (st : List (List ℚ) × List (List ℚ)) i =>
      (st.1, st.2.set i (cleanColumnStep tb bds thr (st.2.getD i []))))
    (motion, motion)
  match sigma with
  | none => looped
  | some s => (looped.1, smoothColumns expQ looped.2 bds s)

lemma foldl_fst_const {α β : Type} (l : List ℕ) (g : β → ℕ → β) (p : α × β) :
    (l.foldl (fun st i => (st.1, g st.2 i)) p).1 = p.1 := by
  induction l generalizing p with
  | nil => rfl
  | cons x xs ih => simpa using ih (p.1, g p.2 x)

/-- C10: `clean_motion_vector` never mutates the caller's motion array: the
source copies the array (line 925) and every masking, interpolation and
smoothing write targets the copy, so the first buffer of the trace is
returned to the caller unchanged. -/
theorem clean_motion_vector_preserves_input (expQ : ℚ → ℚ)
    (motion : List (List ℚ)) (tb : List ℚ) (bds thr : ℚ) (sigma : Option ℚ) :
    (clean_motion_vector_trace expQ motion tb bds thr sigma).1 = motion := by
  cases sigma with
  | none =>
    simp only [clean_motion_vector_trace]
    exact foldl_fst_const (List.range motion.length)
      (fun b i => b.set i (cleanColumnStep tb bds thr (b.getD i []))) (motion, motion)
  | some s =>
    simp only [clean_motion_vector_trace]
    exact foldl_fst_const (List.range motion.length)
      (fun b i => b.set i (cleanColumnStep tb bds thr (b.getD i []))) (motion, motion)

lemma range_map_getD (l : List ℚ) : (List.range l.length).map (fun j => l.getD j 0) = l := by
  apply List.ext_getElem (by simp)
  intro i h1 h2
  simp [List.getD_eq_getElem _ _ h2, List.getElem?_eq_getElem h2]

lemma cleanColumnStep_of_no_crossing (tb : List ℚ) (bds thr : ℚ) (col : List ℚ)
    (h : ∀ k, k < col.length - 1 → ¬ (thr < |(col.getD (k+1) 0 - col.getD k 0) / bds|)) :
    cleanColumnStep tb bds thr col = col := by
  have hinds : speedInds bds thr col = [] := by
    rw [speedInds, List.filter_eq_nil_iff.mpr]
    · rfl
    · intro k hk
      simp only [List.mem_range] at hk
      simpa using h k hk
  have hmask : ∀ j, maskKeep (adjustOdd (speedInds bds thr col)) j = true := by
    intro j
    rw [hinds]
    simp [adjustOdd, maskKeep]
  rw [cleanColumnStep]
  calc (List.range col.length).map
        (fun j => if maskKeep (adjustOdd (speedInds bds thr col)) j then col.getD j 0
          else interpLin (((List.range col.length).filter
            (fun j => maskKeep (adjustOdd (speedInds bds thr col)) j)).map
              (fun j => (tb.getD j 0, col.getD j 0))) (tb.getD j 0))
      = (List.range col.length).map (fun j => col.getD j 0) := by
        apply List.map_congr_left
        intro j _
        rw [hmask j]
        simp
    _ = col := range_map_getD col

/-- C7: on a motion array with at least two time bins per column — the
two-knot minimum of the `scipy.interpolate.interp1d` call that line 947
constructs unconditionally — in which no absolute finite-difference speed
exceeds the threshold, `clean_motion_vector` without smoothing returns its
input unchanged, and hence applying the cleaning twice equals applying it
once. -/
theorem clean_motion_vector_identity_on_clean (expQ : ℚ → ℚ)
    (motion : List (List ℚ)) (tb : List ℚ) (bds thr : ℚ)
    (hbins : ∀ col ∈ motion, 2 ≤ col.length)
    (hclean : ∀ col ∈ motion, ∀ k, k < col.length - 1 →
      ¬ (thr < |(col.getD (k+1) 0 - col.getD k 0) / bds|)) :
    clean_motion_vector expQ motion tb bds thr none = motion ∧
    clean_motion_vector expQ (clean_motion_vector expQ motion tb bds thr none)
        tb bds thr none =
      clean_motion_vector expQ motion tb bds thr none := by
  have h1 : clean_motion_vector expQ motion tb bds thr none = motion := by
    rw [clean_motion_vector]
    calc motion.map (cleanColumnStep tb bds thr)
        = motion.map id := by
          apply List.map_congr_left
          intro col hcol
          exact cleanColumnStep_of_no_crossing tb bds thr col (hclean col hcol)
      _ = motion := List.map_id motion
  exact ⟨h1, by rw [h1, h1]⟩

/-- Witness for C7 at a concrete clean motion array with two time bins. -/
theorem clean_motion_vector_identity_on_clean_witness :
    (∀ col ∈ [[(0:ℚ), 1]], 2 ≤ col.length) ∧
    (∀ col ∈ [[(0:ℚ), 1]], ∀ k, k < col.length - 1 →
      ¬ ((30:ℚ) < |(col.getD (k+1) 0 - col.getD k 0) / 1|)) ∧
    clean_motion_vector (fun _ => 0) [[(0:ℚ), 1]] [0, 1] 1 30 none = [[0, 1]] := by
  have hbins : ∀ col ∈ [[(0:ℚ), 1]], 2 ≤ col.length := by
    intro col hcol
    simp only [List.mem_singleton] at hcol
    subst hcol
    simp
  have hcl : ∀ col ∈ [[(0:ℚ), 1]], ∀ k, k < col.length - 1 →
      ¬ ((30:ℚ) < |(col.getD (k+1) 0 - col.getD k 0) / 1|) := by
    intro col hcol k hk
    simp only [List.mem_singleton] at hcol
    subst hcol
    simp only [List.length_cons, List.length_nil] at hk
    have hk0 : k = 0 := by omega
    subst hk0
    norm_num
  exact ⟨hbins, hcl,
    (clean_motion_vector_identity_on_clean (fun _ => 0) [[(0:ℚ), 1]] [0, 1] 1 30
      hbins hcl).1⟩

/-- C2 (code bug): on the motion column `[0,100,100,100,0,100,100]` with bin
duration 1 s and speed threshold 30 µm/s the crossing indices are
`[1, 4, 5]`, an odd count.  Dropping the leading index (`inds[1:] = [4,5]`,
total excluded duration 1) beats dropping the trailing one
(`inds[:-1] = [1,4]`, total excluded duration 3), so by the documented rule
the leading index should be dropped; but the source has no `inds = inds[1:]`
assignment, keeps the full odd list, and the pairing then ignores the
trailing index — it behaves as if the trailing index were dropped, masking
`[1, 4)` and interpolating the bump away instead of masking `[4, 5)`. -/
theorem clean_motion_vector_odd_count_drops_leading_never :
    speedInds 1 30 [0, 100, 100, 100, 0, 100, 100] = [1, 4, 5] ∧
    pairGapSum ([1, 4, 5].drop 1) < pairGapSum ([1, 4, 5].dropLast) ∧
    adjustOdd [1, 4, 5] = [1, 4, 5] ∧
    clean_motion_vector (fun _ => 0) [[0, 100, 100, 100, 0, 100, 100]]
        [0, 1, 2, 3, 4, 5, 6] 1 30 none
      = [[0, 0, 0, 0, 0, 100, 100]] := by
  refine ⟨?_, ?_, ?_, ?_⟩ <;>
    norm_num [clean_motion_vector, cleanColumnStep, speedInds, adjustOdd,
      pairGapSum, maskKeep, interpLin, List.range_succ]

/-! ### 2D motion histogram (`make_2d_motion_histogram`, source lines
272-335) -/

/-- Peak record: sample index (cast to float by the source), location along
the chosen direction, and signed amplitude. -/
structure PeakRec where
  sample : ℚ
  loc : ℚ
  amp : ℚ

/-- Bin index assigned by `np.histogramdd` to a value for a sorted edge
list: `searchsorted(edges, v, side='right') - 1`, with the rightmost bin
closed (a value equal to the last edge lands in bin `len-2`) and values
outside `[edges[0], edges[-1]]` dropped. -/
def binIndex (edges : List ℚ) (v : ℚ) : Option ℕ :=
  if edges.length < 2 then none
  else if edges.countP (fun e => decide (e ≤ v)) = 0 then none
  else if v = edges.getD (edges.length - 1) 0 then some (edges.length - 2)
  else if edges.length ≤ edges.countP (fun e => decide (e ≤ v)) then none
  else some (edges.countP (fun e => decide (e ≤ v)) - 1)

/-- Entry `(t, s)` of the 2D histogram of `np.histogramdd` over
`(sample_ind, location)` (source lines 318-333): the peak count in the bin,
or, in amplitude-weighted mode, the summed absolute amplitude divided by the
count (`bin_counts[bin_counts == 0] = 1`; the histogram is count-normalised,
an average). -/
def motion_histogram_entry (weightAmp : Bool) (peaks : List PeakRec)
    (tE sE : List ℚ) (t s : ℕ) : ℚ :=
  let sel := peaks.filter
    (fun p => binIndex tE p.sample == some t && binIndex sE p.loc == some s)
  match weightAmp with
  | true =>
    (sel.map (fun p => |p.amp|)).sum / (if sel.length = 0 then 1 else (sel.length : ℚ))
  | false => (sel.length : ℚ)

/-- Embedding of `make_2d_motion_histogram`: temporal bin edges derived from
the recording's sampling rate and sample count, spatial bin edges supplied
by the caller (as in `estimate_motion`). -/
def make_2d_motion_histogram (weightAmp : Bool) (fs : ℚ) (num_samples : ℕ)
    (bin_duration_s : ℚ) (sE : List ℚ) (peaks : List PeakRec) (t s : ℕ) : ℚ :=
  motion_histogram_entry weightAmp peaks (temporal_bin_edges fs num_samples bin_duration_s)
    sE t s

/-- Definition following the claim's words (not the source): the number of
peaks whose sample index falls in temporal bin `t`, with no condition on the
peak's location. -/
def peaks_in_temporal_bin (tE : List ℚ) (peaks : List PeakRec) (t : ℕ) : ℕ :=
  (peaks.filter (fun p => binIndex tE p.sample == some t)).length

lemma binIndex_lt {edges : List ℚ} {v : ℚ} {s : ℕ} (h : binIndex edges v = some s) :
    s + 1 < edges.length := by
  rw [binIndex] at h
  split_ifs at h with h1 h2 h3 h4 <;>
    (have hs := Option.some_inj.mp h
     have hc : 0 < edges.countP (fun e => decide (e ≤ v)) := Nat.pos_of_ne_zero h2
     omega)

lemma sum_indicator_binIndex (sE : List ℚ) (v : ℚ) :
    (∑ s ∈ Finset.range (sE.length - 1), if binIndex sE v == some s then (1:ℚ) else 0)
    = if (binIndex sE v).isSome then 1 else 0 := by
  cases h : binIndex sE v with
  | none => simp [h]
  | some s0 =>
    have hs0 : s0 < sE.length - 1 := by
      have := binIndex_lt h
      omega
    simp only [h, Option.isSome_some, if_true, beq_iff_eq, Option.some_inj]
    rw [Finset.sum_ite_eq (Finset.range (sE.length - 1)) s0 (fun _ => (1:ℚ))]
    simp [Finset.mem_range.mpr hs0]

lemma motion_histogram_entry_cons (p : PeakRec) (rest : List PeakRec)
    (tE sE : List ℚ) (t s : ℕ) :
    motion_histogram_entry false (p :: rest) tE sE t s =
    motion_histogram_entry false rest tE sE t s +
      (if (binIndex tE p.sample == some t && binIndex sE p.loc == some s) = true
        then (1:ℚ) else 0) := by
  simp only [motion_histogram_entry, List.filter_cons]
  cases hp : (binIndex tE p.sample == some t && binIndex sE p.loc == some s) with
  | true =>
    simp only [hp, if_true, List.length_cons]
    push_cast
    ring
  | false => simp [hp]

lemma histogram_entry_spatial_sum (tE sE : List ℚ) (peaks : List PeakRec) (t : ℕ) :
    (∑ s ∈ Finset.range (sE.length - 1), motion_histogram_entry false peaks tE sE t s)
    = ((peaks.filter (fun p => binIndex tE p.sample == some t
        && (binIndex sE p.loc).isSome)).length : ℚ) := by
  induction peaks with
  | nil => simp [motion_histogram_entry]
  | cons p rest ih =>
    have hsum : (∑ s ∈ Finset.range (sE.length - 1),
        motion_histogram_entry false (p :: rest) tE sE t s)
        = (∑ s ∈ Finset.range (sE.length - 1),
            motion_histogram_entry false rest tE sE t s)
          + ∑ s ∈ Finset.range (sE.length - 1),
              (if (binIndex tE p.sample == some t && binIndex sE p.loc == some s) = true
                then (1:ℚ) else 0) := by
      rw [← Finset.sum_add_distrib]
      exact Finset.sum_congr rfl (fun s _ => motion_histogram_entry_cons p rest tE sE t s)
    have hind : (∑ s ∈ Finset.range (sE.length - 1),
        if (binIndex tE p.sample == some t && binIndex sE p.loc == some s) = true
          then (1:ℚ) else 0)
        = if (binIndex tE p.sample == some t && (binIndex sE p.loc).isSome) = true
          then 1 else 0 := by
      cases ht : (binIndex tE p.sample == some t) with
      | false => simp
      | true =>
        simp only [Bool.true_and]
        exact sum_indicator_binIndex sE p.loc
    rw [hsum, ih, hind, List.filter_cons]
    cases hb : (binIndex tE p.sample == some t && (binIndex sE p.loc).isSome) with
    | false => simp
    | true =>
      simp

/-- C3 (amended): summing the count-mode 2D motion histogram over the
spatial axis yields, for each temporal bin, the number of peaks whose sample
index falls in that temporal bin AND whose location falls inside the spatial
bin edges; peaks localised outside the spatial range are dropped by
`np.histogramdd` and do not appear in any spatial bin. -/
theorem histogram_spatial_sum_in_range (fs : ℚ) (num_samples : ℕ)
    (bin_duration_s : ℚ) (sE : List ℚ) (peaks : List PeakRec) (t : ℕ) :
    (∑ s ∈ Finset.range (sE.length - 1),
      make_2d_motion_histogram false fs num_samples bin_duration_s sE peaks t s)
    = ((peaks.filter (fun p =>
        binIndex (temporal_bin_edges fs num_samples bin_duration_s) p.sample == some t
          && (binIndex sE p.loc).isSome)).length : ℚ) :=
  histogram_entry_spatial_sum (temporal_bin_edges fs num_samples bin_duration_s) sE peaks t

/-- C3 (counterexample): the claim as stated fails.  First conjunct: a peak
in temporal bin 0 but localised at 5, outside the spatial edges `[0, 1]`, is
dropped, so the spatial sum is 0 while one peak's sample index falls in the
bin.  Second conjunct: in amplitude-weighted mode two peaks of absolute
amplitudes 1 and 3 in the same bin give a count-normalised histogram value 2
(their mean), not their amplitude sum 4. -/
theorem histogram_spatial_sum_counterexample :
    ((∑ s ∈ Finset.range 1,
        make_2d_motion_histogram false 1 10 10 [0, 1] [⟨0, 5, 1⟩] 0 s)
      ≠ (peaks_in_temporal_bin (temporal_bin_edges 1 10 10) [⟨0, 5, 1⟩] 0 : ℚ)) ∧
    ((∑ s ∈ Finset.range 1,
        make_2d_motion_histogram true 1 10 10 [0, 1] [⟨0, 1/2, 1⟩, ⟨0, 1/2, 3⟩] 0 s)
      ≠ ((([⟨0, 1/2, 1⟩, ⟨0, 1/2, 3⟩] : List PeakRec).filter
          (fun p => binIndex (temporal_bin_edges 1 10 10) p.sample == some 0)).map
            (fun p => |p.amp|)).sum) := by
  constructor <;>
    norm_num [make_2d_motion_histogram, motion_histogram_entry, peaks_in_temporal_bin,
      binIndex, temporal_bin_edges, arangeQ, pyInt, List.range_succ, List.countP,
      List.countP.go]

/-! ### Method kwargs plumbing for `iterative_template_registration`
(`init_kwargs_dict`, source lines 9-26; the branch of `estimate_motion` at
lines 202-222) -/

/-- Python `d[k] = v` on a dict modelled as an association list: replace the
first binding of `k` if present, else append. -/
def dictSet : List (String × ℚ) → String → ℚ → List (String × ℚ)
  | [], k, v => [(k, v)]
  | kv :: rest, k, v =>
    if kv.1 == k then (k, v) :: rest else kv :: dictSet rest k v

/-- Python `d1.update(d2)`: set every binding of `d2` into `d1` in order. -/
def dictUpdate (d1 d2 : List (String × ℚ)) : List (String × ℚ) :=
  d2.foldl (fun acc kv => dictSet acc kv.1 kv.2) d1

/-- Python `d[k]` / `d.get(k)`: the first binding of `k`. -/
def dictGet (d : List (String × ℚ)) (k : String) : Option ℚ :=
  (d.find? (fun kv => kv.1 == k)).map (fun kv => kv.2)

/-- Defaults installed by `init_kwargs_dict` for
`'iterative_template_registration'` (source lines 15-24); note that
`non_rigid_window_overlap` is among them. -/
def iterative_template_defaults : List (String × ℚ) :=
  [("num_amp_bins", 20), ("num_shifts_global", 15), ("num_iterations", 10),
   ("num_shifts_block", 5), ("non_rigid_window_overlap", 1/2),
   ("smoothing_sigma", 1/2), ("kriging_sigma", 1), ("kriging_p", 2),
   ("kriging_d", 2)]

/-- Embedding of `init_kwargs_dict('iterative_template_registration',
method_kwargs)`: the defaults updated with the caller's kwargs
(`method_kwargs_.update(method_kwargs)`, line 25 — unknown keys pass
through silently). -/
def init_kwargs_dict_itr (method_kwargs : List (String × ℚ)) : List (String × ℚ) :=
  dictUpdate iterative_template_defaults method_kwargs

/-- The complete set of `method_kwargs` reads performed by the
`iterative_template_registration` branch of `estimate_motion`:
`num_amp_bins` at line 207 (histogram construction) and the six keyword
arguments forwarded at lines 217-222.  `non_rigid_window_overlap` (and
`kriging_sigma`) are never read: `iterative_template_registration` is called
without them and uses its own defaults. -/
structure ITRCallArgs where
  numAmpBins : Option ℚ
  numShiftsGlobal : Option ℚ
  numIterations : Option ℚ
  numShiftsBlock : Option ℚ
  smoothingSigma : Option ℚ
  krigingP : Option ℚ
  krigingD : Option ℚ
deriving DecidableEq

/-- Embedding of the dataflow from the caller's `method_kwargs` to the
`iterative_template_registration` call: initialise with the defaults, then
read exactly the seven keys the branch uses. -/
def itr_call_args (method_kwargs : List (String × ℚ)) : ITRCallArgs :=
  let d := init_kwargs_dict_itr method_kwargs
  ⟨dictGet d "num_amp_bins", dictGet d "num_shifts_global",
   dictGet d "num_iterations", dictGet d "num_shifts_block",
   dictGet d "smoothing_sigma", dictGet d "kriging_p", dictGet d "kriging_d"⟩

lemma beqT {a b : String} (h : a = b) : (a == b) = true := by simp [h]

lemma beqF {a b : String} (h : a ≠ b) : (a == b) = false := beq_eq_false_iff_ne.mpr h

lemma dictGet_cons_of_eq {kv : String × ℚ} {rest : List (String × ℚ)} {k : String}
    (h : kv.1 = k) : dictGet (kv :: rest) k = some kv.2 := by
  rw [dictGet, @List.find?_cons_of_pos _ (fun x => x.1 == k) kv rest (beqT h)]
  rfl

lemma dictGet_cons_of_ne {kv : String × ℚ} {rest : List (String × ℚ)} {k : String}
    (h : kv.1 ≠ k) : dictGet (kv :: rest) k = dictGet rest k := by
  rw [dictGet, @List.find?_cons_of_neg _ (fun x => x.1 == k) kv rest (by simpa using h),
    dictGet]

lemma dictGet_dictSet_same (d : List (String × ℚ)) (k : String) (v : ℚ) :
    dictGet (dictSet d k v) k = some v := by
  induction d with
  | nil =>
    rw [dictSet]
    exact dictGet_cons_of_eq rfl
  | cons kv rest ih =>
    by_cases h : kv.1 = k
    · rw [dictSet, if_pos (beqT h)]
      exact dictGet_cons_of_eq rfl
    · rw [dictSet, if_neg (by simp [h]), dictGet_cons_of_ne h]
      exact ih

lemma dictGet_dictSet_other (d : List (String × ℚ)) (k k' : String) (v : ℚ)
    (hne : k' ≠ k) :
    dictGet (dictSet d k v) k' = dictGet d k' := by
  induction d with
  | nil =>
    rw [dictSet, dictGet_cons_of_ne (Ne.symm hne)]
  | cons kv rest ih =>
    by_cases h : kv.1 = k
    · rw [dictSet, if_pos (beqT h), dictGet_cons_of_ne (Ne.symm hne),
        dictGet_cons_of_ne (by rw [h]; exact Ne.symm hne)]
    · rw [dictSet, if_neg (by simp [h])]
      by_cases h2 : kv.1 = k'
      · rw [dictGet_cons_of_eq h2, dictGet_cons_of_eq h2]
      · rw [dictGet_cons_of_ne h2, dictGet_cons_of_ne h2, ih]

lemma dictGet_dictUpdate (d mk : List (String × ℚ)) (k : String)
    (hnd : (mk.map Prod.fst).Nodup) :
    dictGet (dictUpdate d mk) k = (dictGet mk k).or (dictGet d k) := by
  induction mk generalizing d with
  | nil => simp [dictUpdate, dictGet]
  | cons kv rest ih =>
    simp only [List.map_cons, List.nodup_cons] at hnd
    have hstep : dictUpdate d (kv :: rest) = dictUpdate (dictSet d kv.1 kv.2) rest := rfl
    rw [hstep, ih _ hnd.2]
    by_cases h : kv.1 = k
    · subst h
      have hrest : dictGet rest kv.1 = none := by
        rw [dictGet, List.find?_eq_none.mpr]
        · rfl
        · intro x hx
          simp only [beq_iff_eq]
          exact fun hc => hnd.1 (hc ▸ List.mem_map_of_mem Prod.fst hx)
      rw [hrest, dictGet_dictSet_same, dictGet_cons_of_eq rfl]
      rfl
    · rw [dictGet_dictSet_other _ _ _ _ (fun hc => h hc.symm), dictGet_cons_of_ne h]

/-- C9: the output of the `iterative_template_registration` branch of
`estimate_motion` is independent of the `non_rigid_window_overlap` entry of
`method_kwargs`.  First conjunct: `init_kwargs_dict` accepts and defaults
the key.  Second conjunct: for any two kwargs dicts that agree on every key
except `non_rigid_window_overlap`, every value the branch reads (and hence
everything it computes: motion, temporal bins and spatial bins) is
identical, because the key is never forwarded to
`iterative_template_registration`. -/
theorem itr_overlap_kwarg_no_influence :
    dictGet (init_kwargs_dict_itr []) "non_rigid_window_overlap" = some (1/2) ∧
    ∀ mk mk' : List (String × ℚ),
      (mk.map Prod.fst).Nodup → (mk'.map Prod.fst).Nodup →
      (∀ k : String, k ≠ "non_rigid_window_overlap" → dictGet mk' k = dictGet mk k) →
      itr_call_args mk' = itr_call_args mk := by
  constructor
  · rfl
  · intro mk mk' hnd hnd' hagree
    have hget : ∀ k : String, k ≠ "non_rigid_window_overlap" →
        dictGet (init_kwargs_dict_itr mk') k = dictGet (init_kwargs_dict_itr mk) k := by
      intro k hk
      rw [init_kwargs_dict_itr, init_kwargs_dict_itr,
        dictGet_dictUpdate _ _ _ hnd', dictGet_dictUpdate _ _ _ hnd, hagree k hk]
    simp only [itr_call_args, ITRCallArgs.mk.injEq]
    refine ⟨hget _ ?_, hget _ ?_, hget _ ?_, hget _ ?_, hget _ ?_, hget _ ?_, hget _ ?_⟩ <;>
      decide

/-- Witness for C9: two concrete kwargs dicts differing only in
`non_rigid_window_overlap` produce identical reads. -/
theorem itr_overlap_kwarg_no_influence_witness :
    itr_call_args [("num_iterations", 3), ("non_rigid_window_overlap", 1)]
      = itr_call_args [("num_iterations", 3)] := by
  apply itr_overlap_kwarg_no_influence.2
  · decide
  · decide
  · intro k hk
    by_cases hni : ("num_iterations" : String) = k
    · rw [dictGet_cons_of_eq hni, dictGet_cons_of_eq hni]
    · rw [@dictGet_cons_of_ne ("num_iterations", (3:ℚ)) [("non_rigid_window_overlap", 1)]
          k hni,
        @dictGet_cons_of_ne ("num_iterations", (3:ℚ)) [] k hni,
        @dictGet_cons_of_ne ("non_rigid_window_overlap", (1:ℚ)) [] k (fun h => hk h.symm)]

/-! ### Normalized cross-correlation (`normxcorr1d` with the numpy engine
`scipy_conv1d`, source lines 796-895) -/

/-- Padded access into the convolution input: `scipy_conv1d` pads the input
with `padding` zeros on each side (line 885); `padGet a p i` is entry `i` of
the padded array. -/
def padGet (a : List ℚ) (p i : ℕ) : ℚ :=
  if p ≤ i ∧ i < p + a.length then a.getD (i - p) 0 else 0

/-- Entry `k` of `scipy.signal.correlate(pad(a), w, mode='valid')` as
computed by `scipy_conv1d` with integer padding `p`:
`out[k] = Σ_m a_pad[k+m] · w[m]`. -/
def convAt (a w : List ℚ) (p k : ℕ) : ℚ :=
  ((List.range w.length).map (fun m => padGet a p (k + m) * w.getD m 0)).sum

/-- The all-ones kernel `np.ones((1, 1, length))` of `normxcorr1d`
(line 841). -/
def onesQ (L : ℕ) : List ℚ := List.replicate L 1

/-- Window size `N = conv1d(ones, ones, padding)` (line 844). -/
def nxcN (L p k : ℕ) : ℚ := convAt (onesQ L) (onesQ L) p k

/-- Windowed template mean `Et = conv1d(ones, template, padding) / N`
(line 845). -/
def nxcEt (t : List ℚ) (p k : ℕ) : ℚ := convAt (onesQ t.length) t p k / nxcN t.length p k

/-- Windowed signal mean `Ex = conv1d(x, ones, padding) / N` (line 846). -/
def nxcEx (t x : List ℚ) (p k : ℕ) : ℚ :=
  convAt x (onesQ t.length) p k / nxcN t.length p k

/-- Windowed covariance `conv1d(x, template)/N - Ex·Et` (lines 849-850). -/
def nxcCov (t x : List ℚ) (p k : ℕ) : ℚ :=
  convAt x t p k / nxcN t.length p k - nxcEx t x p k * nxcEt t p k

/-- Windowed template variance `conv1d(ones, template²)/N - Et²`
(lines 853-856). -/
def nxcVarT (t : List ℚ) (p k : ℕ) : ℚ :=
  convAt (onesQ t.length) (t.map (fun a => a^2)) p k / nxcN t.length p k
    - (nxcEt t p k)^2

/-- Windowed signal variance `conv1d(x², ones)/N - Ex²` (lines 857-860). -/
def nxcVarX (t x : List ℚ) (p k : ℕ) : ℚ :=
  convAt (x.map (fun a => a^2)) (onesQ t.length) p k / nxcN t.length p k
    - (nxcEx t x p k)^2

/-- The correlation value returned by `normxcorr1d` at lag index `k` in
exact real arithmetic: `cov / sqrt(var_x · var_t)` (line 863) with the
non-finite guard of line 864 — in exact arithmetic the float result is
non-finite exactly when the variance product is zero (0/0 or c/0), and a
negative product (impossible exactly, possible in floats) would give
`sqrt(<0) = NaN`; both are zeroed. -/
noncomputable def normxcorr1d (t x : List ℚ) (p k : ℕ) : ℝ :=
  if nxcVarX t x p k * nxcVarT t p k ≤ 0 then 0
  else (nxcCov t x p k : ℝ) / Real.sqrt ((nxcVarX t x p k * nxcVarT t p k : ℚ) : ℝ)

/-- Computable order-faithful key for the correlation value: the image of
`normxcorr1d` under the strictly monotone map `r ↦ r·|r|`
(`normxcorr1d_key_eq` and `mul_abs_lt_mul_abs_iff` below), used so that the
`np.argmax` over lags and the `> corr_threshold` comparison are decidable
while selecting exactly the lags the float code selects. -/
def normxcorrKey (t x : List ℚ) (p k : ℕ) : ℚ :=
  if nxcVarX t x p k * nxcVarT t p k ≤ 0 then 0
  else nxcCov t x p k * |nxcCov t x p k| / (nxcVarX t x p k * nxcVarT t p k)

lemma mul_abs_lt_mul_abs_iff (a b : ℝ) : a * |a| < b * |b| ↔ a < b := by
  have hmono : StrictMono (fun r : ℝ => r * |r|) := by
    intro u v huv
    rcases le_or_lt 0 u with hu | hu
    · have hv : 0 < v := lt_of_le_of_lt hu huv
      simp only [abs_of_nonneg hu, abs_of_pos hv]
      exact mul_self_lt_mul_self hu huv
    · rcases le_or_lt 0 v with hv | hv
      · have h1 : u * |u| < 0 := by
          rw [abs_of_neg hu]
          exact mul_neg_of_neg_of_pos hu (by linarith)
        have h2 : 0 ≤ v * |v| := mul_nonneg hv (abs_nonneg v)
        exact lt_of_lt_of_le h1 h2
      · simp only [abs_of_neg hu, abs_of_neg hv]
        have h1 : v * v < u * u := by nlinarith
        nlinarith
  exact ⟨fun h => hmono.lt_iff_lt.mp h, fun h => hmono h⟩

lemma normxcorr1d_key_eq (t x : List ℚ) (p k : ℕ) :
    (normxcorrKey t x p k : ℝ) = normxcorr1d t x p k * |normxcorr1d t x p k| := by
  rw [normxcorrKey, normxcorr1d]
  by_cases h : nxcVarX t x p k * nxcVarT t p k ≤ 0
  · simp [h]
  · rw [if_neg h, if_neg h]
    have hd : (0:ℝ) < ((nxcVarX t x p k * nxcVarT t p k : ℚ) : ℝ) := by
      exact_mod_cast not_le.mp h
    have hs : (0:ℝ) < Real.sqrt ((nxcVarX t x p k * nxcVarT t p k : ℚ) : ℝ) :=
      Real.sqrt_pos.mpr hd
    rw [abs_div, abs_of_pos hs, div_mul_div_comm, Real.mul_self_sqrt hd.le]
    push_cast
    ring

lemma listSumRange (f : ℕ → ℚ) (n : ℕ) :
    ((List.range n).map f).sum = ∑ m ∈ Finset.range n, f m := by
  induction n with
  | zero => simp
  | succ n ih =>
    rw [List.range_succ, List.map_append, List.sum_append, Finset.sum_range_succ, ih]
    simp

lemma convAt_eq_sum (a w : List ℚ) (p k : ℕ) :
    convAt a w p k = ∑ m ∈ Finset.range w.length, padGet a p (k + m) * w.getD m 0 :=
  listSumRange _ _

lemma getD_onesQ {L m : ℕ} (h : m < L) : (onesQ L).getD m 0 = 1 := by
  rw [onesQ, List.getD_eq_getElem _ _ (by simpa using h), List.getElem_replicate]

lemma padGet_onesQ (L p j : ℕ) :
    padGet (onesQ L) p j = if p ≤ j ∧ j < p + L then 1 else 0 := by
  rw [padGet, onesQ, List.length_replicate]
  split_ifs with h
  · rw [← onesQ]
    exact getD_onesQ (by omega)
  · rfl

lemma getD_map_sq {t : List ℚ} {m : ℕ} (h : m < t.length) :
    (t.map (fun a => a^2)).getD m 0 = (t.getD m 0)^2 := by
  rw [List.getD_eq_getElem _ _ (by simpa using h), List.getD_eq_getElem _ _ h,
    List.getElem_map]

lemma padGet_map_sq (x : List ℚ) (p j : ℕ) :
    padGet (x.map (fun a => a^2)) p j = (padGet x p j)^2 := by
  rw [padGet, padGet, List.length_map]
  split_ifs with h
  · exact getD_map_sq (by omega)
  · ring

/-- Cauchy–Schwarz specialised to a 0/1 weight: if `g` vanishes off the
support of the indicator `f`, then `(Σ g)² ≤ (Σ f)(Σ g²)`. -/
lemma cs_nonneg (n : ℕ) (f g : ℕ → ℚ) (hf : ∀ m, f m = 0 ∨ f m = 1)
    (hg : ∀ m, g m = f m * g m) :
    (∑ m ∈ Finset.range n, g m)^2 ≤
      (∑ m ∈ Finset.range n, f m) * (∑ m ∈ Finset.range n, g m ^ 2) := by
  have h1 : (∑ m ∈ Finset.range n, g m) = ∑ m ∈ Finset.range n, f m * g m :=
    Finset.sum_congr rfl (fun m _ => hg m)
  have h2 : (∑ m ∈ Finset.range n, (f m)^2) = ∑ m ∈ Finset.range n, f m :=
    Finset.sum_congr rfl (fun m _ => by rcases hf m with h | h <;> rw [h] <;> ring)
  calc (∑ m ∈ Finset.range n, g m)^2
      = (∑ m ∈ Finset.range n, f m * g m)^2 := by rw [h1]
    _ ≤ (∑ m ∈ Finset.range n, (f m)^2) * (∑ m ∈ Finset.range n, (g m)^2) :=
        Finset.sum_mul_sq_le_sq_mul_sq (Finset.range n) f g
    _ = (∑ m ∈ Finset.range n, f m) * (∑ m ∈ Finset.range n, g m ^ 2) := by rw [h2]

lemma var_nonneg_of (N S1 S2 : ℚ) (hN : 0 < N) (hcs : S1^2 ≤ N * S2) :
    0 ≤ S2 / N - (S1 / N)^2 := by
  rw [div_pow, sub_nonneg, div_le_div_iff₀ (by positivity) hN]
  nlinarith

lemma nxcN_eq_sum (L p k : ℕ) :
    nxcN L p k = ∑ m ∈ Finset.range L, padGet (onesQ L) p (k + m) := by
  rw [nxcN, convAt_eq_sum, onesQ, List.length_replicate]
  exact Finset.sum_congr rfl (fun m hm => by
    rw [← onesQ, getD_onesQ (Finset.mem_range.mp hm)]
    ring)

lemma padGet_onesQ_cases (L p j : ℕ) :
    padGet (onesQ L) p j = 0 ∨ padGet (onesQ L) p j = 1 := by
  rw [padGet_onesQ]
  split_ifs <;> simp

lemma nxcN_pos (L p k : ℕ) (hp : p < L) (hk : k ≤ 2 * p) : 0 < nxcN L p k := by
  rw [nxcN_eq_sum]
  have hm0 : ∃ m0 ∈ Finset.range L, (0:ℚ) < padGet (onesQ L) p (k + m0) := by
    by_cases hkp : k ≤ p
    · refine ⟨p - k, Finset.mem_range.mpr (by omega), ?_⟩
      rw [padGet_onesQ, if_pos (by omega)]
      norm_num
    · refine ⟨0, Finset.mem_range.mpr (by omega), ?_⟩
      rw [padGet_onesQ, if_pos (by omega)]
      norm_num
  refine Finset.sum_pos' (fun m _ => ?_) hm0
  rcases padGet_onesQ_cases L p (k + m) with h | h <;> simp [h]

lemma nxcVarX_nonneg (t x : List ℚ) (p k : ℕ) (hlen : x.length = t.length)
    (hp : p < t.length) (hk : k ≤ 2 * p) : 0 ≤ nxcVarX t x p k := by
  rw [nxcVarX, nxcEx]
  have hS1 : convAt x (onesQ t.length) p k
      = ∑ m ∈ Finset.range t.length, padGet x p (k + m) := by
    rw [convAt_eq_sum, onesQ, List.length_replicate]
    exact Finset.sum_congr rfl (fun m hm => by
      rw [← onesQ, getD_onesQ (Finset.mem_range.mp hm)]
      ring)
  have hS2 : convAt (x.map (fun a => a^2)) (onesQ t.length) p k
      = ∑ m ∈ Finset.range t.length, (padGet x p (k + m))^2 := by
    rw [convAt_eq_sum, onesQ, List.length_replicate]
    exact Finset.sum_congr rfl (fun m hm => by
      rw [← onesQ, getD_onesQ (Finset.mem_range.mp hm), padGet_map_sq]
      ring)
  rw [hS1, hS2, nxcN_eq_sum]
  apply var_nonneg_of
  · rw [← nxcN_eq_sum]
    exact nxcN_pos t.length p k hp hk
  · apply cs_nonneg t.length (fun m => padGet (onesQ t.length) p (k + m))
      (fun m => padGet x p (k + m))
    · exact fun m => padGet_onesQ_cases t.length p (k + m)
    · intro m
      rw [padGet_onesQ]
      split_ifs with h
      · ring
      · rw [padGet, hlen, if_neg h]
        ring

lemma nxcVarT_nonneg (t : List ℚ) (p k : ℕ) (hp : p < t.length) (hk : k ≤ 2 * p) :
    0 ≤ nxcVarT t p k := by
  rw [nxcVarT, nxcEt]
  have hS1 : convAt (onesQ t.length) t p k
      = ∑ m ∈ Finset.range t.length, padGet (onesQ t.length) p (k + m) * t.getD m 0 :=
    convAt_eq_sum _ _ _ _
  have hS2 : convAt (onesQ t.length) (t.map (fun a => a^2)) p k
      = ∑ m ∈ Finset.range t.length,
          (padGet (onesQ t.length) p (k + m) * t.getD m 0)^2 := by
    rw [convAt_eq_sum, List.length_map]
    exact Finset.sum_congr rfl (fun m hm => by
      rw [getD_map_sq (Finset.mem_range.mp hm)]
      rcases padGet_onesQ_cases t.length p (k + m) with h | h <;> rw [h] <;> ring)
  rw [hS1, hS2, nxcN_eq_sum]
  apply var_nonneg_of
  · rw [← nxcN_eq_sum]
    exact nxcN_pos t.length p k hp hk
  · apply cs_nonneg t.length (fun m => padGet (onesQ t.length) p (k + m))
      (fun m => padGet (onesQ t.length) p (k + m) * t.getD m 0)
    · exact fun m => padGet_onesQ_cases t.length p (k + m)
    · intro m
      rcases padGet_onesQ_cases t.length p (k + m) with h | h <;> rw [h] <;> ring

/-- C8: every value returned by `normxcorr1d` is a (finite) real number.
The two windowed variances are nonnegative in exact arithmetic, so the only
degenerate normalisation is a zero variance product — exactly the inputs on
which the float code produces `NaN`/`±inf` — and there the returned
correlation is 0 (line 864's `corr[~npx.isfinite(corr)] = 0`). -/
theorem normxcorr1d_finite (t x : List ℚ) (p k : ℕ) (hlen : x.length = t.length)
    (hp : p < t.length) (hk : k ≤ 2 * p) :
    0 ≤ nxcVarX t x p k ∧ 0 ≤ nxcVarT t p k ∧
    (nxcVarX t x p k * nxcVarT t p k = 0 → normxcorr1d t x p k = 0) := by
  refine ⟨nxcVarX_nonneg t x p k hlen hp hk, nxcVarT_nonneg t p k hp hk, fun h => ?_⟩
  rw [normxcorr1d, if_pos (le_of_eq h)]

/-- Witness for C8 at a zero-variance input. -/
theorem normxcorr1d_finite_witness :
    (([ (0:ℚ), 0 ] : List ℚ).length = ([ (0:ℚ), 0 ] : List ℚ).length ∧
      1 < ([ (0:ℚ), 0 ] : List ℚ).length ∧ (0:ℕ) ≤ 2 * 1) ∧
    normxcorr1d [0, 0] [0, 0] 1 0 = 0 :=
  ⟨⟨rfl, by norm_num, by norm_num⟩,
   (normxcorr1d_finite [0, 0] [0, 0] 1 0 rfl (by norm_num) (by norm_num)).2.2
     (by norm_num [nxcVarX, nxcVarT, nxcEx, nxcEt, nxcN, convAt, padGet, onesQ,
        List.range_succ])⟩

/-! ### Pairwise displacement (`compute_pairwise_displacement`, method
`'conv'`, source lines 407-532) -/

/-- Model of `np.argmax` over a list: the index of the first maximum
(0 on the empty list). -/
def listArgmax (l : List ℚ) : ℕ :=
  (l.foldl (fun (st : ℕ × ℕ × ℚ) v =>
    if st.2.2 < v then (st.1 + 1, st.1, v) else (st.1 + 1, st.2.1, st.2.2))
    (0, 0, l.headD 0)).2.1

/-- `possible_displacement = np.arange(-n, n + 1) * bin_um` (line 437) at
index `d`. -/
def possibleDisplacement (n : ℕ) (bin_um : ℚ) (d : ℕ) : ℚ := ((d : ℚ) - (n : ℚ)) * bin_um

/-- The shift count `n` of lines 430-436:
`min(shape[1] // 2, int(np.ceil(max_displacement_um // bin_um)))`, or
`shape[1] // 2` when `max_displacement_um is None`. -/
def convShiftCount (L : ℕ) (bin_um : ℚ) (max_displacement_um : Option ℚ) : ℕ :=
  match max_displacement_um with
  | none => L / 2
  | some M => min (L / 2) ⌈pyFloorDiv M bin_um⌉₊

/-- Entry `(i, j)` of the dense-path pairwise displacement matrix
(lines 477-503): the displacement of the first lag maximising the
normalised cross-correlation of `x = motion_hist[i]` against
`template = motion_hist[j]` (argument roles per the batched call of
line 482), zeroed when a positive `corr_threshold` is not exceeded
(lines 500-502).  The argmax and the threshold comparison are taken in the
order-faithful key space (`normxcorrKey`; `r ↦ r·|r|` is strictly monotone
by `mul_abs_lt_mul_abs_iff`, so the selected lag and the comparison against
`corr_threshold·|corr_threshold|` coincide with the float code's). -/
def compute_pairwise_displacement_dense (hist : List (List ℚ)) (bin_um : ℚ)
    (max_displacement_um : Option ℚ) (corr_threshold : ℚ) (i j : ℕ) : ℚ :=
  let L := (hist.headD []).length
  let n := convShiftCount L bin_um max_displacement_um
  let x := hist.getD i []
  let t := hist.getD j []
  let curve := (List.range (2 * n + 1)).map (fun k => normxcorrKey t x n k)
  let ind := listArgmax curve
  let disp := possibleDisplacement n bin_um ind
  if 0 < corr_threshold then
    if corr_threshold * |corr_threshold| < curve.getD ind 0 then disp else 0
  else disp

/-- The value `possible_displacement[ind_max]` computed by the banded
(time-horizon) loop at a pair `(a, b)` with `a < b` (lines 450-472), where
`template = motion_hist[a]` and `x = motion_hist[b]` (the call at
lines 456-461); 0 when `max_corr > corr_threshold` fails and the sparse
entries are left unset. -/
def bandPairValue (hist : List (List ℚ)) (bin_um : ℚ)
    (max_displacement_um : Option ℚ) (corr_threshold : ℚ) (a b : ℕ) : ℚ :=
  let L := (hist.headD []).length
  let n := convShiftCount L bin_um max_displacement_um
  let t := hist.getD a []
  let x := hist.getD b []
  let curve := (List.range (2 * n + 1)).map (fun k => normxcorrKey t x n k)
  let ind := listArgmax curve
  if corr_threshold * |corr_threshold| < curve.getD ind 0 then
    possibleDisplacement n bin_um ind
  else 0

/-- Entry `(i, j)` of the banded-path sparse pairwise displacement matrix
(lines 446-474): the loop over `i < j < min(size, i + band_width)` writes
`pairwise_displacement[i, j] = -possible_displacement[ind_max]` and
`pairwise_displacement[j, i] = possible_displacement[ind_max]`
(lines 470-471); the diagonal is set to 0 (line 452) and unwritten entries
of the `dok_matrix` are 0. -/
def compute_pairwise_displacement_band (hist : List (List ℚ)) (bin_um : ℚ)
    (max_displacement_um : Option ℚ) (corr_threshold : ℚ) (band : ℕ) (i j : ℕ) : ℚ :=
  if i = j then 0
  else if i < j then
    (if j < hist.length ∧ j < i + band then
      -(bandPairValue hist bin_um max_displacement_um corr_threshold i j) else 0)
  else
    (if i < hist.length ∧ i < j + band then
      bandPairValue hist bin_um max_displacement_um corr_threshold j i else 0)

/-- C1 (amended): the banded (time-horizon) path of
`compute_pairwise_displacement` returns an antisymmetric matrix: for every
pair of indices, `D[i,j] = -D[j,i]` — both entries of a pair are written
from one argmax, with opposite signs, and the diagonal and unwritten
entries are 0. -/
theorem pairwise_displacement_band_antisymmetric (hist : List (List ℚ))
    (bin_um : ℚ) (max_displacement_um : Option ℚ) (corr_threshold : ℚ)
    (band : ℕ) (i j : ℕ) :
    compute_pairwise_displacement_band hist bin_um max_displacement_um
        corr_threshold band i j
      = - compute_pairwise_displacement_band hist bin_um max_displacement_um
        corr_threshold band j i := by
  by_cases hij : i = j
  · subst hij
    simp [compute_pairwise_displacement_band]
  · by_cases h : i < j
    · rw [compute_pairwise_displacement_band, compute_pairwise_displacement_band,
        if_neg hij, if_pos h, if_neg (fun hc : j = i => hij hc.symm),
        if_neg (by omega : ¬ j < i)]
      split_ifs <;> ring
    · have h2 : j < i := by omega
      rw [compute_pairwise_displacement_band, compute_pairwise_displacement_band,
        if_neg hij, if_neg h, if_neg (fun hc : j = i => hij hc.symm), if_pos h2]
      split_ifs <;> ring

/-- C1 (counterexample): the dense path is not antisymmetric for every peak
set and configuration.  On the all-zero motion histogram (produced e.g. by
an empty peak set) every correlation is zeroed by the non-finite guard, the
argmax tie-breaks to lag index 0 in every pair and direction, and with the
default configuration (`bin_um = 10`, `max_displacement_um = 1500`,
`corr_threshold = 0`) both `D[0,1]` and `D[1,0]` equal `-20`, so
`D[0,1] ≠ -D[1,0]`. -/
theorem pairwise_displacement_dense_not_antisymmetric :
    compute_pairwise_displacement_dense [[0,0,0,0],[0,0,0,0]] 10 (some 1500) 0 0 1
        = -20 ∧
    compute_pairwise_displacement_dense [[0,0,0,0],[0,0,0,0]] 10 (some 1500) 0 1 0
        = -20 ∧
    compute_pairwise_displacement_dense [[0,0,0,0],[0,0,0,0]] 10 (some 1500) 0 0 1
      ≠ - compute_pairwise_displacement_dense [[0,0,0,0],[0,0,0,0]] 10 (some 1500) 0 1 0 := by
  refine ⟨?_, ?_, ?_⟩ <;>
    norm_num [compute_pairwise_displacement_dense, convShiftCount, normxcorrKey,
      nxcVarX, nxcVarT, nxcCov, nxcEx, nxcEt, nxcN, convAt, padGet, onesQ,
      possibleDisplacement, listArgmax, pyFloorDiv, List.range_succ, List.replicate]

/-! ### Non-rigid windows and their renormalization (`estimate_motion`,
source lines 124-138 and 246-251) -/

/-- Lower extent `min_ = np.min(contact_pos) - margin_um` (line 128). -/
def nrMin (contactPos : List ℚ) (margin_um : ℚ) : ℚ := listMin contactPos - margin_um

/-- Upper extent `max_ = np.max(contact_pos) + margin_um` (line 129). -/
def nrMax (contactPos : List ℚ) (margin_um : ℚ) : ℚ := listMax contactPos + margin_um

/-- `num_non_rigid_windows = int((max_ - min_) // bin_step_um)` (line 130);
the quotient is nonnegative for the configurations of interest, so `int` of
the float floor-division is the natural floor. -/
def num_non_rigid_windows (contactPos : List ℚ) (margin_um bin_step_um : ℚ) : ℕ :=
  ⌊(nrMax contactPos margin_um - nrMin contactPos margin_um) / bin_step_um⌋₊

/-- Window centers `spatial_bins_non_rigid = np.arange(num) * bin_step_um +
min_ + border` with `border = ((max_ - min_) % bin_step_um) / 2`
(lines 131-132). -/
def spatial_bins_non_rigid (contactPos : List ℚ) (margin_um bin_step_um : ℚ)
    (w : ℕ) : ℚ :=
  (w : ℚ) * bin_step_um + nrMin contactPos margin_um
    + pyMod (nrMax contactPos margin_um - nrMin contactPos margin_um) bin_step_um / 2

/-- Gaussian non-rigid window of lines 134-138:
`win = np.exp(-(spatial_bin_edges[:-1] - win_center)**2 / sigma_um**2)` with
`sigma_um = sigma * bin_step_um`, at window `w` and spatial bin `b`. -/
noncomputable def non_rigid_window (contactPos : List ℚ)
    (margin_um bin_um bin_step_um sigma : ℚ) (w b : ℕ) : ℝ :=
  Real.exp (-(((get_spatial_bin_edges contactPos margin_um bin_um).getD b 0 : ℝ)
      - (spatial_bins_non_rigid contactPos margin_um bin_step_um w : ℝ))^2
    / ((sigma * bin_step_um : ℚ) : ℝ)^2)

/-- The upsampling renormalization of lines 248-249:
`non_rigid_windows /= non_rigid_windows.sum(axis=0, keepdims=True)` — each
window value divided by the per-spatial-bin sum across windows. -/
noncomputable def non_rigid_window_renormalized (contactPos : List ℚ)
    (margin_um bin_um bin_step_um sigma : ℚ) (w b : ℕ) : ℝ :=
  non_rigid_window contactPos margin_um bin_um bin_step_um sigma w b /
    ∑ w' ∈ Finset.range (num_non_rigid_windows contactPos margin_um bin_step_um),
      non_rigid_window contactPos margin_um bin_um bin_step_um sigma w' b

/-- C4: in every non-rigid configuration with at least one window, all
window values are nonnegative (they are positive Gaussians), and after the
upsampling renormalization the weights across windows sum to exactly 1 at
every spatial bin (partition of unity). -/
theorem non_rigid_windows_partition_of_unity (contactPos : List ℚ)
    (margin_um bin_um bin_step_um sigma : ℚ)
    (hW : 0 < num_non_rigid_windows contactPos margin_um bin_step_um) :
    (∀ w b, 0 ≤ non_rigid_window contactPos margin_um bin_um bin_step_um sigma w b) ∧
    (∀ w b, 0 ≤ non_rigid_window_renormalized contactPos margin_um bin_um
        bin_step_um sigma w b) ∧
    (∀ b, (∑ w ∈ Finset.range (num_non_rigid_windows contactPos margin_um bin_step_um),
        non_rigid_window_renormalized contactPos margin_um bin_um bin_step_um sigma w b)
      = 1) := by
  have hpos : ∀ w b,
      0 < non_rigid_window contactPos margin_um bin_um bin_step_um sigma w b :=
    fun w b => Real.exp_pos _
  have hsum : ∀ b, 0 <
      ∑ w' ∈ Finset.range (num_non_rigid_windows contactPos margin_um bin_step_um),
        non_rigid_window contactPos margin_um bin_um bin_step_um sigma w' b :=
    fun b => Finset.sum_pos (fun w _ => hpos w b)
      (Finset.nonempty_range_iff.mpr hW.ne')
  refine ⟨fun w b => (hpos w b).le, fun w b => ?_, fun b => ?_⟩
  · exact div_nonneg (hpos w b).le (hsum b).le
  · simp only [non_rigid_window_renormalized]
    rw [← Finset.sum_div]
    exact div_self (hsum b).ne'

/-- Witness for C4 at a concrete two-window configuration. -/
theorem non_rigid_windows_partition_of_unity_witness :
    0 < num_non_rigid_windows [0, 100] 50 100 ∧
    (∑ w ∈ Finset.range (num_non_rigid_windows [0, 100] 50 100),
      non_rigid_window_renormalized [0, 100] 50 10 100 3 w 0) = 1 := by
  have hW : 0 < num_non_rigid_windows [0, 100] 50 100 := by
    norm_num [num_non_rigid_windows, nrMax, nrMin, listMax, listMin]
  exact ⟨hW,
    (non_rigid_windows_partition_of_unity [0, 100] 50 10 100 3 hW).2.2 0⟩
